import Mathlib

/-!
Verification of the unibot ingestion-and-retrieval pipeline.

The definitions below are shallow embeddings of the TypeScript sources:
- `Unibot.Ingest.*`  embeds `frontend/scripts/ingest.ts` (normalize,
  slidingWindows, chunkText, embed);
- `Unibot.Ai.*`      embeds `frontend/lib/ai.ts` (askGemini);
- `Unibot.Route.*`   embeds `frontend/app/api/ask/route.ts` (POST).

Text is modelled as `List Char`; JavaScript string operations become the
corresponding list operations.  Loops with non-structural control flow are
embedded with an explicit fuel parameter that is always large enough
(`length + 1`), so every definition is executable and reduces in the kernel.
JavaScript numbers appearing in comparisons are modelled as `ℚ`.
-/

namespace Unibot

namespace Ingest

/-- The no-break space character U+00A0, matched by the space/nbsp regex in
`normalize` and by the JS whitespace class `\s`. -/
def nbsp : Char := Char.ofNat 0xA0

/-- The JavaScript `\s` character class (used by `String.trim`, the
`/\n\s*\n/` paragraph splitter, and `takeWhile`/`dropWhile` below). -/
def isWs (c : Char) : Bool :=
  c = ' ' || c = '\t' || c = '\n' || c = '\r' || c = '\x0b' || c = '\x0c' ||
  c = nbsp || c.toNat = 0x1680 || (0x2000 ≤ c.toNat && c.toNat ≤ 0x200A) ||
  c.toNat = 0x2028 || c.toNat = 0x2029 || c.toNat = 0x202F || c.toNat = 0x205F ||
  c.toNat = 0x3000 || c.toNat = 0xFEFF

/-- `text.replace(/\r/g, "\n")`. -/
def replCR (s : List Char) : List Char := s.map fun c => if c = '\r' then '\n' else c

/-- `text.replace(/\t/g, " ")`. -/
def replTab (s : List Char) : List Char := s.map fun c => if c = '\t' then ' ' else c

/-- A character matched by the space/nbsp class. -/
def isSpaceLike (c : Char) : Bool := c = ' ' || c = nbsp

/-- One-pass embedding of `text.replace` of the space/nbsp-run regex with `" "`: every maximal
run of space-like characters is replaced by a single `' '`.  The flag records
whether we are inside such a run. -/
def collapseSpacesGo : Bool → List Char → List Char
  | _, [] => []
  | inRun, c :: rest =>
    if isSpaceLike c then
      if inRun then collapseSpacesGo true rest else ' ' :: collapseSpacesGo true rest
    else c :: collapseSpacesGo false rest

/-- `text.replace` of the space/nbsp-run regex with `" "`. -/
def collapseSpaces (s : List Char) : List Char := collapseSpacesGo false s

/-- One-pass embedding of `text.replace(/\n{3,}/g, "\n\n")`: of every maximal
run of newlines of length ≥ 3 only the first two are kept.  `k` counts the
newlines already seen in the current run. -/
def collapseNewlinesGo : ℕ → List Char → List Char
  | _, [] => []
  | k, c :: rest =>
    if c = '\n' then
      if k < 2 then '\n' :: collapseNewlinesGo (k + 1) rest
      else collapseNewlinesGo (k + 1) rest
    else c :: collapseNewlinesGo 0 rest

/-- `text.replace(/\n{3,}/g, "\n\n")`. -/
def collapseNewlines (s : List Char) : List Char := collapseNewlinesGo 0 s

/-- JavaScript `String.prototype.trim` (drop `\s` characters from both ends). -/
def trim (s : List Char) : List Char :=
  ((s.dropWhile isWs).reverse.dropWhile isWs).reverse

/-- `normalize` from `ingest.ts`: carriage returns to newlines, tabs to
spaces, collapse space runs, collapse 3+ newline runs to two, trim. -/
def normalize (s : List Char) : List Char :=
  trim (collapseNewlines (collapseSpaces (replTab (replCR s))))

/-- Loop body of `slidingWindows`; `fuel` bounds the number of iterations
(`s.length + 1` always suffices because `start` grows by `step ≥ 1`). -/
def slidingWindowsGo (s : List Char) (size stp : ℕ) : ℕ → ℕ → List (List Char)
  | 0, _ => []
  | fuel + 1, start =>
    if start < s.length then
      let w := (s.drop start).take size
      if s.length ≤ start + size then [w]
      else w :: slidingWindowsGo s size stp fuel (start + stp)
    else []

/-- `slidingWindows` from `ingest.ts`: windows of length `size` starting at
`0, step, 2·step, …` with `step = max(1, size - overlap)`, stopping at the
window that reaches the end of the string. -/
def slidingWindows (s : List Char) (size overlap : ℕ) : List (List Char) :=
  slidingWindowsGo s size (max 1 (size - overlap)) (s.length + 1) 0

/-- Index of the last `'\n'` in `l`, if any. -/
def lastNewlineIdx (l : List Char) : Option ℕ :=
  match l.reverse.findIdx? (· = '\n') with
  | some i => some (l.length - 1 - i)
  | none => none

/-- Greedy match of the `\s*\n` tail of the paragraph separator `/\n\s*\n/`
against `rest`: the regex engine consumes the run of whitespace up to the
*last* newline inside it.  Returns the remainder after the match. -/
def blankSepTail (rest : List Char) : Option (List Char) :=
  match lastNewlineIdx (rest.takeWhile isWs) with
  | some j => some (rest.drop (j + 1))
  | none => none

/-- `text.split(/\n\s*\n/)`: leftmost-first, non-overlapping matches of the
separator; `acc` is the current piece, reversed.  Each step consumes at least
one character, so fuel `length + 1` suffices (the fuel-0 branch is dead). -/
def splitParasGo : ℕ → List Char → List Char → List (List Char)
  | 0, acc, rest => [acc.reverse ++ rest]
  | _ + 1, acc, [] => [acc.reverse]
  | fuel + 1, acc, c :: rest =>
    if c = '\n' then
      match blankSepTail rest with
      | some rest' => acc.reverse :: splitParasGo fuel [] rest'
      | none => splitParasGo fuel ('\n' :: acc) rest
    else splitParasGo fuel (c :: acc) rest

/-- `text.split(/\n\s*\n/)` from `chunkText`. -/
def splitParas (s : List Char) : List (List Char) := splitParasGo (s.length + 1) [] s

/-- `Math.min(80, Math.floor(size * 0.15))`, the short-fragment limit of
`chunkText` (exact arithmetic: `⌊size · 0.15⌋ = 3·size / 20`). -/
def shortLimit (size : ℕ) : ℕ := min 80 (3 * size / 20)

/-- Body of the paragraph-accumulation loop of `chunkText`: state is
`(chunks so far, current buffer)`; `"\n\n"` is the join used by the code. -/
def chunkStep (size overlap : ℕ) (st : List (List Char) × List Char) (p : List Char) :
    List (List Char) × List Char :=
  if (st.2 ++ '\n' :: '\n' :: p).length ≤ size then
    (st.1, if st.2 = [] then p else st.2 ++ '\n' :: '\n' :: p)
  else
    (st.1 ++ slidingWindows st.2 size overlap, p)

/-- The paragraph loop of `chunkText` (fold of `chunkStep` from the empty
state). -/
def chunkAccum (size overlap : ℕ) (paras : List (List Char)) :
    List (List Char) × List Char :=
  paras.foldl (chunkStep size overlap) ([], [])

/-- The post-loop flush of `chunkText`: an in-budget buffer is trimmed and
pushed if nonempty (`flush()`), an oversize one goes to `slidingWindows`. -/
def chunkFlush (size overlap : ℕ) (st : List (List Char) × List Char) :
    List (List Char) :=
  if st.2 = [] then st.1
  else if st.2.length ≤ size then
    (if trim st.2 = [] then st.1 else st.1 ++ [trim st.2])
  else st.1 ++ slidingWindows st.2 size overlap

/-- `chunkText` from `ingest.ts`: split into paragraphs, greedily accumulate
them under `size`, send oversize buffers to `slidingWindows`, flush the tail,
then trim every chunk and drop the ones shorter than `shortLimit size`. -/
def chunkText (text : List Char) (size overlap : ℕ) : List (List Char) :=
  ((chunkFlush size overlap (chunkAccum size overlap (splitParas text))).map trim).filter
    fun c => shortLimit size ≤ c.length

/-! ### Properties of `slidingWindows` (claim C7) -/

theorem slidingWindowsGo_getElem? (s : List Char) (size stp : ℕ) (h1 : 1 ≤ stp) :
    ∀ fuel start i w, s.length ≤ start + fuel →
      (slidingWindowsGo s size stp fuel start)[i]? = some w →
      w = (s.drop (start + i * stp)).take size := by
  intro fuel
  induction fuel with
  | zero =>
    intro start i w h hw
    simp [slidingWindowsGo] at hw
  | succ n ih =>
    intro start i w h hw
    by_cases hs : start < s.length
    · by_cases hend : s.length ≤ start + size
      · simp only [slidingWindowsGo, hs, if_true, hend] at hw
        cases i with
        | zero =>
          simp only [List.getElem?_cons_zero, Option.some.injEq] at hw
          simp [← hw]
        | succ j => simp at hw
      · simp only [slidingWindowsGo, hs, if_true, hend, if_false] at hw
        cases i with
        | zero =>
          simp only [List.getElem?_cons_zero, Option.some.injEq] at hw
          simp [← hw]
        | succ j =>
          simp only [List.getElem?_cons_succ] at hw
          have h3 := ih (start + stp) j w (by omega) hw
          have h4 : start + (j + 1) * stp = start + stp + j * stp := by
            rw [Nat.succ_mul]; omega
          rw [h4]
          exact h3
    · simp [slidingWindowsGo, hs] at hw

theorem slidingWindowsGo_cover (s : List Char) (size stp : ℕ)
    (h1 : 1 ≤ stp) (h2 : stp ≤ size) :
    ∀ fuel start j, s.length ≤ start + fuel → start ≤ j → j < s.length →
      ∃ i, i < (slidingWindowsGo s size stp fuel start).length ∧
        start + i * stp ≤ j ∧ j < start + i * stp + size := by
  intro fuel
  induction fuel with
  | zero => intro start j h hj1 hj2; omega
  | succ n ih =>
    intro start j h hj1 hj2
    have hs : start < s.length := lt_of_le_of_lt hj1 hj2
    by_cases hend : s.length ≤ start + size
    · refine ⟨0, ?_, by omega, by omega⟩
      simp [slidingWindowsGo, hs, hend]
    · by_cases hj : j < start + size
      · refine ⟨0, ?_, by omega, by omega⟩
        simp [slidingWindowsGo, hs, hend]
      · obtain ⟨i, hi, hle, hlt⟩ :=
          ih (start + stp) j (by omega) (by omega) hj2
        refine ⟨i + 1, ?_, ?_, ?_⟩
        · simpa [slidingWindowsGo, hs, hend] using Nat.succ_lt_succ hi
        · rw [Nat.succ_mul]; omega
        · rw [Nat.succ_mul]; omega

theorem slidingWindowsGo_inner (s : List Char) (size stp : ℕ) (h1 : 1 ≤ stp) :
    ∀ fuel start i, s.length ≤ start + fuel →
      i + 1 < (slidingWindowsGo s size stp fuel start).length →
      start + i * stp + size < s.length := by
  intro fuel
  induction fuel with
  | zero => intro start i h hi; simp [slidingWindowsGo] at hi
  | succ n ih =>
    intro start i h hi
    by_cases hs : start < s.length
    · by_cases hend : s.length ≤ start + size
      · simp [slidingWindowsGo, hs, hend] at hi
      · simp only [slidingWindowsGo, hs, if_true, hend, if_false,
          List.length_cons] at hi
        cases i with
        | zero => simpa using hend
        | succ i' =>
          have := ih (start + stp) i' (by omega) (by omega)
          rw [Nat.succ_mul]
          omega
    · simp [slidingWindowsGo, hs] at hi

theorem slidingWindowsGo_last (s : List Char) (size stp : ℕ)
    (h1 : 1 ≤ stp) (h2 : stp ≤ size) :
    ∀ fuel start, s.length ≤ start + fuel → start < s.length →
      slidingWindowsGo s size stp fuel start ≠ [] ∧
      s.length ≤ start + ((slidingWindowsGo s size stp fuel start).length - 1) * stp + size := by
  intro fuel
  induction fuel with
  | zero => intro start h hs; omega
  | succ n ih =>
    intro start h hs
    by_cases hend : s.length ≤ start + size
    · constructor
      · simp [slidingWindowsGo, hs, hend]
      · simp [slidingWindowsGo, hs, hend]
    · obtain ⟨hne, hlast⟩ := ih (start + stp) (by omega) (by omega)
      have hlen : 1 ≤ (slidingWindowsGo s size stp n (start + stp)).length :=
        List.length_pos.mpr hne
      constructor
      · simp [slidingWindowsGo, hs, hend]
      · simp only [slidingWindowsGo, hs, if_true, hend, if_false, List.length_cons]
        have heq : (slidingWindowsGo s size stp n (start + stp)).length + 1 - 1
            = ((slidingWindowsGo s size stp n (start + stp)).length - 1) + 1 := by omega
        rw [heq, Nat.succ_mul]
        omega

/-- C7: for `0 ≤ overlap < size` the sliding-window splitter emits windows at
starts `0, step, 2·step, …` with `step = size - overlap = max(1, size-overlap)`,
each window covering `[start, min(len, start+size))`; every window but the
last ends strictly before the end of `s`; no character between consecutive
windows is skipped (the next start is at most the previous end); the windows
cover every character of `s`; and for nonempty `s` the last window reaches the
end of `s`. -/
theorem slidingWindows_spec (s : List Char) (size overlap : ℕ) (h : overlap < size) :
    (∀ i w, (slidingWindows s size overlap)[i]? = some w →
        w = (s.drop (i * (size - overlap))).take size) ∧
    (∀ i, i + 1 < (slidingWindows s size overlap).length →
        (i + 1) * (size - overlap) ≤ i * (size - overlap) + size) ∧
    (∀ i, i + 1 < (slidingWindows s size overlap).length →
        i * (size - overlap) + size < s.length) ∧
    (∀ j, j < s.length → ∃ i, i < (slidingWindows s size overlap).length ∧
        i * (size - overlap) ≤ j ∧ j < i * (size - overlap) + size) ∧
    (s ≠ [] → slidingWindows s size overlap ≠ [] ∧
        s.length ≤ ((slidingWindows s size overlap).length - 1) * (size - overlap) + size) := by
  have hstep : max 1 (size - overlap) = size - overlap := by omega
  have h1 : 1 ≤ size - overlap := by omega
  have h2 : size - overlap ≤ size := by omega
  refine ⟨?_, ?_, ?_, ?_, ?_⟩
  · intro i w hw
    have := slidingWindowsGo_getElem? s size (size - overlap) h1 (s.length + 1) 0 i w
      (by omega) (by simpa [slidingWindows, hstep] using hw)
    simpa using this
  · intro i _
    rw [Nat.succ_mul]
    omega
  · intro i hi
    have := slidingWindowsGo_inner s size (size - overlap) h1 (s.length + 1) 0 i
      (by omega) (by simpa [slidingWindows, hstep] using hi)
    simpa using this
  · intro j hj
    have := slidingWindowsGo_cover s size (size - overlap) h1 h2 (s.length + 1) 0 j
      (by omega) (by omega) hj
    simpa [slidingWindows, hstep] using this
  · intro hne
    have hpos : 0 < s.length := List.length_pos.mpr hne
    have := slidingWindowsGo_last s size (size - overlap) h1 h2 (s.length + 1) 0
      (by omega) hpos
    simpa [slidingWindows, hstep] using this

/-- Witness for C7 at `s = "abcdef"`, `size = 3`, `overlap = 1`. -/
theorem slidingWindows_spec_witness :
    (1 < 3) ∧
    ((∀ i w, (slidingWindows "abcdef".data 3 1)[i]? = some w →
        w = (("abcdef".data).drop (i * (3 - 1))).take 3) ∧
    (∀ i, i + 1 < (slidingWindows "abcdef".data 3 1).length →
        (i + 1) * (3 - 1) ≤ i * (3 - 1) + 3) ∧
    (∀ i, i + 1 < (slidingWindows "abcdef".data 3 1).length →
        i * (3 - 1) + 3 < ("abcdef".data).length) ∧
    (∀ j, j < ("abcdef".data).length → ∃ i, i < (slidingWindows "abcdef".data 3 1).length ∧
        i * (3 - 1) ≤ j ∧ j < i * (3 - 1) + 3) ∧
    ("abcdef".data ≠ [] → slidingWindows "abcdef".data 3 1 ≠ [] ∧
        ("abcdef".data).length ≤
          ((slidingWindows "abcdef".data 3 1).length - 1) * (3 - 1) + 3)) :=
  ⟨by norm_num, slidingWindows_spec "abcdef".data 3 1 (by norm_num)⟩

/-! ### Properties of `trim` and `chunkText` (claim C8) -/

theorem trim_eq_rdropWhile (s : List Char) :
    trim s = List.rdropWhile isWs (s.dropWhile isWs) := rfl

theorem trim_sublist (s : List Char) : (trim s).Sublist s := by
  rw [trim_eq_rdropWhile]
  have hp := List.rdropWhile_prefix isWs (s.dropWhile isWs)
  exact hp.sublist.trans (List.dropWhile_suffix isWs).sublist

theorem trim_length_le (s : List Char) : (trim s).length ≤ s.length :=
  (trim_sublist s).length_le

theorem trim_subset (s : List Char) : trim s ⊆ s :=
  (trim_sublist s).subset

theorem get_zero_eq_of_append (u r t : List Char) (h : u ++ r = t)
    (hl : 0 < u.length) (hl2 : 0 < t.length) :
    u.get ⟨0, hl⟩ = t.get ⟨0, hl2⟩ := by
  cases u with
  | nil => simp at hl
  | cons a u' =>
    cases t with
    | nil => simp at hl2
    | cons b t' =>
      have hab : a = b := by
        have := congrArg List.head? h
        simpa using this
      simp [hab]

theorem trim_trim (s : List Char) : trim (trim s) = trim s := by
  rw [trim_eq_rdropWhile, trim_eq_rdropWhile]
  have h1 : List.dropWhile isWs (List.rdropWhile isWs (s.dropWhile isWs))
      = List.rdropWhile isWs (s.dropWhile isWs) := by
    rw [List.dropWhile_eq_self_iff]
    intro hl
    obtain ⟨r, hr⟩ := List.rdropWhile_prefix isWs (s.dropWhile isWs)
    have hl2 : 0 < (s.dropWhile isWs).length := by
      rw [← hr, List.length_append]
      omega
    rw [get_zero_eq_of_append _ r _ hr hl hl2]
    exact List.dropWhile_get_zero_not isWs s hl2
  rw [h1, List.rdropWhile_idempotent]

theorem length_mem_slidingWindowsGo (s : List Char) (size stp : ℕ) :
    ∀ fuel start w, w ∈ slidingWindowsGo s size stp fuel start → w.length ≤ size := by
  intro fuel
  induction fuel with
  | zero => intro start w hw; simp [slidingWindowsGo] at hw
  | succ n ih =>
    intro start w hw
    by_cases hs : start < s.length
    · by_cases hend : s.length ≤ start + size
      · simp only [slidingWindowsGo, hs, if_true, hend, List.mem_singleton] at hw
        rw [hw, List.length_take]
        omega
      · simp only [slidingWindowsGo, hs, if_true, hend, if_false, List.mem_cons] at hw
        rcases hw with hw | hw
        · rw [hw, List.length_take]
          omega
        · exact ih (start + stp) w hw
    · simp [slidingWindowsGo, hs] at hw

theorem length_mem_slidingWindows (s : List Char) (size overlap : ℕ) (w : List Char)
    (hw : w ∈ slidingWindows s size overlap) : w.length ≤ size :=
  length_mem_slidingWindowsGo s size (max 1 (size - overlap)) (s.length + 1) 0 w hw

theorem length_mem_chunkAccum (size overlap : ℕ) :
    ∀ (paras : List (List Char)) (st : List (List Char) × List Char),
      (∀ c ∈ st.1, c.length ≤ size) →
      ∀ c ∈ (paras.foldl (chunkStep size overlap) st).1, c.length ≤ size := by
  intro paras
  induction paras with
  | nil => intro st hst c hc; exact hst c hc
  | cons p ps ih =>
    intro st hst c hc
    rw [List.foldl_cons] at hc
    refine ih (chunkStep size overlap st p) ?_ c hc
    intro d hd
    unfold chunkStep at hd
    by_cases hfit : (st.2 ++ '\n' :: '\n' :: p).length ≤ size
    · simp only [hfit, if_true] at hd
      exact hst d hd
    · simp only [hfit, if_false, List.mem_append] at hd
      rcases hd with hd | hd
      · exact hst d hd
      · exact length_mem_slidingWindows st.2 size overlap d hd

theorem length_mem_chunkFlush (size overlap : ℕ) (st : List (List Char) × List Char)
    (hst : ∀ c ∈ st.1, c.length ≤ size) :
    ∀ c ∈ chunkFlush size overlap st, c.length ≤ size := by
  intro c hc
  unfold chunkFlush at hc
  by_cases h0 : st.2 = []
  · simp only [h0, if_true] at hc
    exact hst c hc
  · simp only [h0, if_false] at hc
    by_cases h1 : st.2.length ≤ size
    · simp only [h1, if_true] at hc
      by_cases h2 : trim st.2 = []
      · simp only [h2, if_true] at hc
        exact hst c hc
      · simp only [h2, if_false, List.mem_append, List.mem_singleton] at hc
        rcases hc with hc | hc
        · exact hst c hc
        · rw [hc]
          exact (trim_length_le st.2).trans h1
    · simp only [h1, if_false, List.mem_append] at hc
      rcases hc with hc | hc
      · exact hst c hc
      · exact length_mem_slidingWindows st.2 size overlap c hc

/-- C8 (amended): for `0 ≤ overlap < size`, every chunk emitted by
`chunkText` has length ≤ `size`, is already trimmed, and its (trimmed) length
is at least `min(80, ⌊size·0.15⌋)`; it is non-empty whenever that limit is at
least 1.  (The original claim's unconditional non-emptiness fails when the
limit is 0, see the counterexample.) -/
theorem chunkText_bounds (text : List Char) (size overlap : ℕ) (hov : overlap < size) :
    ∀ c ∈ chunkText text size overlap,
      c.length ≤ size ∧ shortLimit size ≤ c.length ∧ trim c = c ∧
        (1 ≤ shortLimit size → c ≠ []) := by
  intro c hc
  unfold chunkText at hc
  rw [List.mem_filter] at hc
  obtain ⟨hmem, hlen⟩ := hc
  rw [List.mem_map] at hmem
  obtain ⟨d, hd, hcd⟩ := hmem
  have hdlen : d.length ≤ size := by
    refine length_mem_chunkFlush size overlap _ ?_ d hd
    exact length_mem_chunkAccum size overlap (splitParas text) ([], []) (by simp)
  have hshort : shortLimit size ≤ c.length := by
    simpa using hlen
  refine ⟨?_, hshort, ?_, ?_⟩
  · rw [← hcd]
    exact (trim_length_le d).trans hdlen
  · rw [← hcd, trim_trim]
  · intro h1
    intro hnil
    rw [hnil] at hshort
    simp at hshort
    omega

/-- Witness for C8 (amended) at `text = "hello"`, `size = 10`, `overlap = 1`:
`chunkText` returns `["hello"]` and the bounds hold for it. -/
theorem chunkText_bounds_witness :
    (1 < 10) ∧ ("hello".data ∈ chunkText "hello".data 10 1) ∧
      ("hello".data.length ≤ 10 ∧ shortLimit 10 ≤ "hello".data.length ∧
        trim "hello".data = "hello".data ∧ (1 ≤ shortLimit 10 → "hello".data ≠ [])) :=
  ⟨by norm_num, by decide,
    chunkText_bounds "hello".data 10 1 (by norm_num) "hello".data (by decide)⟩

/-- Counterexample to C8 as stated: for `text = "a   b"`, `size = 3`,
`overlap = 2` (valid: `0 ≤ 2 < 3`), the filter limit `min(80, ⌊3·0.15⌋)` is 0,
and `chunkText` emits the empty chunk (the middle all-space window trims to
`""` and passes the filter), refuting "every emitted chunk is non-empty". -/
theorem chunkText_emits_empty_cex :
    (2 < 3) ∧ [] ∈ chunkText "a   b".data 3 2 := by
  constructor
  · norm_num
  · decide

/-! ### Idempotence of `normalize` (claim C9)

The strategy: characterise the strings left fixed by each stage of the
pipeline by syntactic invariants (no carriage return / tab / no-break space,
no two adjacent plain spaces, no three adjacent newlines, trimmed), show each
stage establishes its own invariant and preserves the earlier ones, and
conclude that a second run of `normalize` is the identity. -/

/-- No two adjacent plain spaces (the strings fixed by `collapseSpaces`,
together with absence of `nbsp`). -/
def noDoubleSpace : List Char → Prop
  | a :: b :: rest => ¬(a = ' ' ∧ b = ' ') ∧ noDoubleSpace (b :: rest)
  | _ => True

/-- No three adjacent newlines (the strings fixed by `collapseNewlines`). -/
def noTripleNl : List Char → Prop
  | a :: b :: c :: rest => ¬(a = '\n' ∧ b = '\n' ∧ c = '\n') ∧ noTripleNl (b :: c :: rest)
  | _ => True

theorem noDoubleSpace_tail {a : Char} {l : List Char}
    (h : noDoubleSpace (a :: l)) : noDoubleSpace l := by
  cases l with
  | nil => simp [noDoubleSpace]
  | cons b r => exact h.2

theorem noDoubleSpace_append_right {l m : List Char}
    (h : noDoubleSpace (l ++ m)) : noDoubleSpace m := by
  induction l with
  | nil => exact h
  | cons a l ih => exact ih (noDoubleSpace_tail h)

theorem noDoubleSpace_append_left {l m : List Char}
    (h : noDoubleSpace (l ++ m)) : noDoubleSpace l := by
  induction l with
  | nil => simp [noDoubleSpace]
  | cons a l ih =>
    cases l with
    | nil => simp [noDoubleSpace]
    | cons b r =>
      rw [List.cons_append, List.cons_append] at h
      exact ⟨h.1, ih h.2⟩

theorem noTripleNl_tail {a : Char} {l : List Char}
    (h : noTripleNl (a :: l)) : noTripleNl l := by
  cases l with
  | nil => simp [noTripleNl]
  | cons b r =>
    cases r with
    | nil => simp [noTripleNl]
    | cons c r' => exact h.2

theorem noTripleNl_append_right {l m : List Char}
    (h : noTripleNl (l ++ m)) : noTripleNl m := by
  induction l with
  | nil => exact h
  | cons a l ih => exact ih (noTripleNl_tail h)

theorem noTripleNl_append_left {l m : List Char}
    (h : noTripleNl (l ++ m)) : noTripleNl l := by
  induction l with
  | nil => simp [noTripleNl]
  | cons a l ih =>
    cases l with
    | nil => simp [noTripleNl]
    | cons b r =>
      cases r with
      | nil => simp [noTripleNl]
      | cons c r' =>
        rw [List.cons_append, List.cons_append, List.cons_append] at h
        exact ⟨h.1, ih h.2⟩

theorem noTripleNl_cons (a : Char) (X : List Char) (hX : noTripleNl X)
    (h : ¬(a = '\n' ∧ X.head? = some '\n' ∧ X.tail.head? = some '\n')) :
    noTripleNl (a :: X) := by
  cases X with
  | nil => simp [noTripleNl]
  | cons x X' =>
    cases X' with
    | nil => simp [noTripleNl]
    | cons y r =>
      refine ⟨?_, hX⟩
      intro ⟨h1, h2, h3⟩
      exact h ⟨h1, by simp [h2], by simp [h3]⟩

/-- The trimmed part of `s` is an inner segment of `s`. -/
theorem trim_decomp (s : List Char) : ∃ a b, a ++ (trim s ++ b) = s := by
  obtain ⟨r, hr⟩ := List.rdropWhile_prefix isWs (s.dropWhile isWs)
  refine ⟨s.takeWhile isWs, r, ?_⟩
  rw [← trim_eq_rdropWhile] at hr
  rw [hr, List.takeWhile_append_dropWhile]

theorem noDoubleSpace_trim {s : List Char} (h : noDoubleSpace s) :
    noDoubleSpace (trim s) := by
  obtain ⟨a, b, hab⟩ := trim_decomp s
  rw [← hab] at h
  exact noDoubleSpace_append_left (noDoubleSpace_append_right h)

theorem noTripleNl_trim {s : List Char} (h : noTripleNl s) :
    noTripleNl (trim s) := by
  obtain ⟨a, b, hab⟩ := trim_decomp s
  rw [← hab] at h
  exact noTripleNl_append_left (noTripleNl_append_right h)

/-! Membership lemmas: each stage only introduces `' '` or `'\n'`. -/

theorem mem_replCR {c : Char} {s : List Char} (h : c ∈ replCR s) :
    c = '\n' ∨ c ∈ s := by
  rw [replCR, List.mem_map] at h
  obtain ⟨a, ha, hac⟩ := h
  by_cases har : a = '\r'
  · simp [har] at hac
    exact Or.inl hac.symm
  · simp [har] at hac
    exact Or.inr (hac ▸ ha)

theorem mem_replTab {c : Char} {s : List Char} (h : c ∈ replTab s) :
    c = ' ' ∨ c ∈ s := by
  rw [replTab, List.mem_map] at h
  obtain ⟨a, ha, hac⟩ := h
  by_cases hat : a = '\t'
  · simp [hat] at hac
    exact Or.inl hac.symm
  · simp [hat] at hac
    exact Or.inr (hac ▸ ha)

theorem mem_collapseSpacesGo {c : Char} :
    ∀ (s : List Char) (b : Bool), c ∈ collapseSpacesGo b s → c = ' ' ∨ c ∈ s := by
  intro s
  induction s with
  | nil => intro b h; simp [collapseSpacesGo] at h
  | cons a rest ih =>
    intro b h
    by_cases ha : isSpaceLike a
    · by_cases hb : b
      · simp only [collapseSpacesGo, ha, if_true, hb] at h
        cases ih true h with
        | inl h' => exact Or.inl h'
        | inr h' => exact Or.inr (List.mem_cons_of_mem a h')
      · simp only [collapseSpacesGo, ha, if_true, hb, Bool.false_eq_true, if_false,
          List.mem_cons] at h
        cases h with
        | inl h' => exact Or.inl h'
        | inr h' =>
          cases ih true h' with
          | inl h2 => exact Or.inl h2
          | inr h2 => exact Or.inr (List.mem_cons_of_mem a h2)
    · simp only [collapseSpacesGo, ha, Bool.false_eq_true, if_false, List.mem_cons] at h
      cases h with
      | inl h' => exact Or.inr (h' ▸ List.mem_cons_self a rest)
      | inr h' =>
        cases ih false h' with
        | inl h2 => exact Or.inl h2
        | inr h2 => exact Or.inr (List.mem_cons_of_mem a h2)

theorem mem_collapseNewlinesGo {c : Char} :
    ∀ (s : List Char) (k : ℕ), c ∈ collapseNewlinesGo k s → c = '\n' ∨ c ∈ s := by
  intro s
  induction s with
  | nil => intro k h; simp [collapseNewlinesGo] at h
  | cons a rest ih =>
    intro k h
    by_cases ha : a = '\n'
    · by_cases hk : k < 2
      · simp only [collapseNewlinesGo, ha, if_true, hk, List.mem_cons] at h
        cases h with
        | inl h' => exact Or.inl h'
        | inr h' =>
          cases ih (k + 1) h' with
          | inl h2 => exact Or.inl h2
          | inr h2 => exact Or.inr (List.mem_cons_of_mem a h2)
      · simp only [collapseNewlinesGo, ha, if_true, hk, if_false] at h
        cases ih (k + 1) h with
        | inl h' => exact Or.inl h'
        | inr h' => exact Or.inr (List.mem_cons_of_mem a h')
    · simp only [collapseNewlinesGo, ha, Bool.false_eq_true, if_false, List.mem_cons] at h
      cases h with
      | inl h' => exact Or.inr (h' ▸ List.mem_cons_self a rest)
      | inr h' =>
        cases ih 0 h' with
        | inl h2 => exact Or.inl h2
        | inr h2 => exact Or.inr (List.mem_cons_of_mem a h2)

/-! Each stage establishes its invariant. -/

theorem replCR_no_cr (s : List Char) : '\r' ∉ replCR s := by
  intro h
  rw [replCR, List.mem_map] at h
  obtain ⟨a, _, hac⟩ := h
  by_cases har : a = '\r' <;> simp [har] at hac

theorem replTab_no_tab (s : List Char) : '\t' ∉ replTab s := by
  intro h
  rw [replTab, List.mem_map] at h
  obtain ⟨a, _, hac⟩ := h
  by_cases hat : a = '\t' <;> simp [hat] at hac

theorem collapseSpacesGo_no_nbsp :
    ∀ (s : List Char) (b : Bool), nbsp ∉ collapseSpacesGo b s := by
  intro s
  induction s with
  | nil => intro b h; simp [collapseSpacesGo] at h
  | cons a rest ih =>
    intro b h
    by_cases ha : isSpaceLike a
    · by_cases hb : b
      · simp only [collapseSpacesGo, ha, if_true, hb] at h
        exact ih true h
      · simp only [collapseSpacesGo, ha, if_true, hb, Bool.false_eq_true, if_false,
          List.mem_cons] at h
        cases h with
        | inl h' => exact absurd h' (by decide)
        | inr h' => exact ih true h'
    · simp only [collapseSpacesGo, ha, Bool.false_eq_true, if_false, List.mem_cons] at h
      cases h with
      | inl h' =>
        rw [← h'] at ha
        exact ha (by simp [isSpaceLike])
      | inr h' => exact ih false h' 

theorem collapseSpacesGo_noDouble :
    ∀ (s : List Char) (b : Bool),
      noDoubleSpace (collapseSpacesGo b s) ∧
      (b = true → (collapseSpacesGo b s).head? ≠ some ' ') := by
  intro s
  induction s with
  | nil => intro b; exact ⟨by simp [collapseSpacesGo, noDoubleSpace], by simp [collapseSpacesGo]⟩
  | cons a rest ih =>
    intro b
    by_cases ha : isSpaceLike a
    · by_cases hb : b
      · simp only [collapseSpacesGo, ha, if_true, hb]
        exact ⟨(ih true).1, fun _ => (ih true).2 rfl⟩
      · simp only [collapseSpacesGo, ha, if_true, hb, if_false]
        constructor
        · have h1 := (ih true).1
          have h2 := (ih true).2 rfl
          cases hX : collapseSpacesGo true rest with
          | nil => simp [noDoubleSpace]
          | cons x X' =>
            rw [hX] at h1 h2
            refine ⟨?_, h1⟩
            intro ⟨_, hx⟩
            exact h2 (by simp [hx])
        · simp [hb]
    · simp only [collapseSpacesGo, ha, if_false]
      have haS : a ≠ ' ' := by
        intro h
        rw [h] at ha
        exact ha (by simp [isSpaceLike])
      constructor
      · have h1 := (ih false).1
        cases hX : collapseSpacesGo false rest with
        | nil => simp [noDoubleSpace]
        | cons x X' =>
          rw [hX] at h1
          exact ⟨fun ⟨h', _⟩ => haS h', h1⟩
      · intro _
        simp [haS]

theorem collapseNewlinesGo_head (s : List Char) :
    (collapseNewlinesGo 0 s).head? = s.head? := by
  cases s with
  | nil => rfl
  | cons a rest =>
    by_cases ha : a = '\n'
    · simp [collapseNewlinesGo, ha]
    · simp [collapseNewlinesGo, ha]

theorem collapseNewlinesGo_noDouble :
    ∀ (s : List Char) (k : ℕ), noDoubleSpace s →
      noDoubleSpace (collapseNewlinesGo k s) := by
  intro s
  induction s with
  | nil => intro k _; simp [collapseNewlinesGo, noDoubleSpace]
  | cons a rest ih =>
    intro k h
    have htail := noDoubleSpace_tail h
    by_cases ha : a = '\n'
    · by_cases hk : k < 2
      · simp only [collapseNewlinesGo, ha, if_true, hk]
        have h1 := ih (k + 1) htail
        cases hX : collapseNewlinesGo (k + 1) rest with
        | nil => simp [noDoubleSpace]
        | cons x X' =>
          rw [hX] at h1
          refine ⟨?_, h1⟩
          intro ⟨hn, _⟩
          exact absurd hn (by decide)
      · simp only [collapseNewlinesGo, ha, if_true, hk, if_false]
        exact ih (k + 1) htail
    · simp only [collapseNewlinesGo, ha, if_false]
      have h1 := ih 0 htail
      cases hX : collapseNewlinesGo 0 rest with
      | nil => simp [noDoubleSpace]
      | cons x X' =>
        rw [hX] at h1
        refine ⟨?_, h1⟩
        intro ⟨haS, hxS⟩
        have hhead := collapseNewlinesGo_head rest
        rw [hX] at hhead
        cases rest with
        | nil => simp at hhead
        | cons y r =>
          simp only [List.head?_cons, Option.some.injEq] at hhead
          refine h.1 ⟨haS, ?_⟩
          rw [← hhead]
          exact hxS

theorem collapseNewlinesGo_noTriple :
    ∀ (s : List Char) (k : ℕ),
      noTripleNl (collapseNewlinesGo k s) ∧
      (2 ≤ k → (collapseNewlinesGo k s).head? ≠ some '\n') ∧
      (1 ≤ k → ¬((collapseNewlinesGo k s).head? = some '\n' ∧
        (collapseNewlinesGo k s).tail.head? = some '\n')) := by
  intro s
  induction s with
  | nil =>
    intro k
    refine ⟨by simp [collapseNewlinesGo, noTripleNl], by simp [collapseNewlinesGo], ?_⟩
    simp [collapseNewlinesGo]
  | cons a rest ih =>
    intro k
    by_cases ha : a = '\n'
    · by_cases hk : k < 2
      · simp only [collapseNewlinesGo, ha, if_true, hk]
        have hX1 := (ih (k + 1)).1
        refine ⟨?_, ?_, ?_⟩
        · refine noTripleNl_cons '\n' _ hX1 ?_
          intro ⟨_, hh, ht⟩
          interval_cases k
          · exact (ih 1).2.2 (by omega) ⟨hh, ht⟩
          · exact (ih 2).2.1 (by omega) hh
        · intro h2
          omega
        · intro h1 ⟨_, ht⟩
          simp only [List.tail_cons] at ht
          have hk1 : k = 1 := by omega
          rw [hk1] at ht
          exact (ih 2).2.1 (by omega) ht
      · simp only [collapseNewlinesGo, ha, if_true, hk, if_false]
        refine ⟨(ih (k + 1)).1, ?_, ?_⟩
        · intro _
          exact (ih (k + 1)).2.1 (by omega)
        · intro _ ⟨hh, _⟩
          exact (ih (k + 1)).2.1 (by omega) hh
    · simp only [collapseNewlinesGo, ha, if_false]
      refine ⟨?_, ?_, ?_⟩
      · refine noTripleNl_cons a _ (ih 0).1 ?_
        intro ⟨haa, _⟩
        exact ha haa
      · intro _
        simp [ha]
      · intro _ ⟨hh, _⟩
        simp at hh
        exact ha hh

/-! Fixed-point lemmas: on strings satisfying the invariants each stage is the
identity. -/

theorem replCR_fix {s : List Char} (h : '\r' ∉ s) : replCR s = s := by
  induction s with
  | nil => rfl
  | cons a rest ih =>
    have ha : a ≠ '\r' := fun hr => h (hr ▸ List.mem_cons_self a rest)
    have hrest : '\r' ∉ rest := fun hr => h (List.mem_cons_of_mem a hr)
    simp only [replCR, List.map_cons, ha, if_false]
    rw [replCR] at ih
    rw [ih hrest]

theorem replTab_fix {s : List Char} (h : '\t' ∉ s) : replTab s = s := by
  induction s with
  | nil => rfl
  | cons a rest ih =>
    have ha : a ≠ '\t' := fun ht => h (ht ▸ List.mem_cons_self a rest)
    have hrest : '\t' ∉ rest := fun ht => h (List.mem_cons_of_mem a ht)
    simp only [replTab, List.map_cons, ha, if_false]
    rw [replTab] at ih
    rw [ih hrest]

theorem collapseSpacesGo_fix :
    ∀ (s : List Char) (b : Bool), nbsp ∉ s → noDoubleSpace s →
      (b = true → s.head? ≠ some ' ') →
      collapseSpacesGo b s = s := by
  intro s
  induction s with
  | nil => intro b _ _ _; rfl
  | cons a rest ih =>
    intro b hn h hb
    have hnrest : nbsp ∉ rest := fun hm => hn (List.mem_cons_of_mem a hm)
    by_cases ha : isSpaceLike a
    · have haS : a = ' ' := by
        rcases (by simpa [isSpaceLike] using ha : a = ' ' ∨ a = nbsp) with h' | h'
        · exact h'
        · exact absurd (h' ▸ List.mem_cons_self a rest) hn
      have hbF : b = false := by
        cases b with
        | false => rfl
        | true => exact absurd (by simp [haS]) (hb rfl)
      subst hbF
      have hstep : collapseSpacesGo false (a :: rest) = ' ' :: collapseSpacesGo true rest := by
        simp [collapseSpacesGo, ha]
      rw [hstep, haS]
      congr 1
      refine ih true hnrest (noDoubleSpace_tail h) ?_
      intro _
      cases rest with
      | nil => simp
      | cons x r =>
        simp only [List.head?_cons, ne_eq, Option.some.injEq]
        intro hx
        rw [haS] at h
        exact h.1 ⟨rfl, hx⟩
    · have hstep : collapseSpacesGo b (a :: rest) = a :: collapseSpacesGo false rest := by
        cases b <;> simp [collapseSpacesGo, ha]
      rw [hstep]
      congr 1
      exact ih false hnrest (noDoubleSpace_tail h) (by simp)

theorem collapseNewlinesGo_fix :
    ∀ (s : List Char) (k : ℕ), noTripleNl s →
      (2 ≤ k → s.head? ≠ some '\n') →
      (k = 1 → ¬(s.head? = some '\n' ∧ s.tail.head? = some '\n')) →
      collapseNewlinesGo k s = s := by
  intro s
  induction s with
  | nil => intro k _ _ _; rfl
  | cons a rest ih =>
    intro k h h2 h1
    by_cases ha : a = '\n'
    · have hk : k < 2 := by
        by_contra hk2
        exact h2 (by omega) (by simp [ha])
      simp only [collapseNewlinesGo, ha, if_true, hk]
      congr 1
      refine ih (k + 1) (noTripleNl_tail h) ?_ ?_
      · intro _
        have hk1 : k = 1 := by omega
        intro hh
        refine h1 hk1 ⟨by simp [ha], ?_⟩
        simpa using hh
      · intro hk0
        have hk00 : k = 0 := by omega
        intro ⟨hh, ht⟩
        cases rest with
        | nil => simp at hh
        | cons x r =>
          simp at hh
          cases r with
          | nil => simp at ht
          | cons y r' =>
            simp at ht
            exact h.1 ⟨ha, hh, ht⟩
    · simp only [collapseNewlinesGo, ha, if_false]
      congr 1
      exact ih 0 (noTripleNl_tail h) (by omega) (by omega)

/-- C9: the normalization pipeline is idempotent. -/
theorem normalize_idempotent (s : List Char) :
    normalize (normalize s) = normalize s := by
  have hv : normalize s
      = trim (collapseNewlines (collapseSpaces (replTab (replCR s)))) := rfl
  have hsub : ∀ c ∈ normalize s,
      c ∈ collapseNewlines (collapseSpaces (replTab (replCR s))) := by
    intro c hc
    rw [hv] at hc
    exact trim_subset _ hc
  -- no carriage return
  have hcr : '\r' ∉ normalize s := by
    intro h
    have h' := hsub _ h
    rcases mem_collapseNewlinesGo _ 0 h' with h'' | h''
    · exact absurd h'' (by decide)
    · rcases mem_collapseSpacesGo _ false h'' with h3 | h3
      · exact absurd h3 (by decide)
      · rcases mem_replTab h3 with h4 | h4
        · exact absurd h4 (by decide)
        · exact replCR_no_cr s h4
  -- no tab
  have htab : '\t' ∉ normalize s := by
    intro h
    have h' := hsub _ h
    rcases mem_collapseNewlinesGo _ 0 h' with h'' | h''
    · exact absurd h'' (by decide)
    · rcases mem_collapseSpacesGo _ false h'' with h3 | h3
      · exact absurd h3 (by decide)
      · exact replTab_no_tab _ h3
  -- no nbsp
  have hnb : nbsp ∉ normalize s := by
    intro h
    have h' := hsub _ h
    rcases mem_collapseNewlinesGo _ 0 h' with h'' | h''
    · exact absurd h'' (by decide)
    · exact collapseSpacesGo_no_nbsp _ false h''
  -- no double space
  have hdd : noDoubleSpace (normalize s) := by
    rw [hv]
    exact noDoubleSpace_trim
      (collapseNewlinesGo_noDouble _ 0 (collapseSpacesGo_noDouble _ false).1)
  -- no triple newline
  have htt : noTripleNl (normalize s) := by
    rw [hv]
    exact noTripleNl_trim (collapseNewlinesGo_noTriple _ 0).1
  -- trimmed
  have htr : trim (normalize s) = normalize s := by
    rw [hv]
    exact trim_trim _
  calc normalize (normalize s)
      = trim (collapseNewlines (collapseSpaces (replTab (replCR (normalize s))))) := rfl
    _ = trim (collapseNewlines (collapseSpaces (replTab (normalize s)))) := by
        rw [replCR_fix hcr]
    _ = trim (collapseNewlines (collapseSpaces (normalize s))) := by
        rw [replTab_fix htab]
    _ = trim (collapseNewlines (normalize s)) := by
        rw [collapseSpaces, collapseSpacesGo_fix _ false hnb hdd (by simp)]
    _ = trim (normalize s) := by
        rw [collapseNewlines, collapseNewlinesGo_fix _ 0 htt (by omega) (by omega)]
    _ = normalize s := htr

/-! ### The embedder of `ingest.ts` (claim C4) -/

/-- A JSON field as seen by the `??`-coalescing chain in `embed`: absent
(`undefined`/`null`), an array of numbers, or some other JSON value. -/
inductive JsField where
  | missing
  | arr (vs : List ℚ)
  | other
deriving DecidableEq

/-- The response of the remote embedding call, as consumed by `embed`:
HTTP success flag and status, body text (used in the error message), and the
three fields probed by the coalescing chain. -/
structure EmbedResp where
  ok : Bool
  status : ℕ
  bodyText : String
  embeddingValues : JsField
  dataFirstValues : JsField
  embeddingField : JsField
deriving DecidableEq

/-- `data?.embedding?.values ?? data?.data?.[0]?.embedding?.values ??
data?.embedding ?? []`: first present field, defaulting to the empty array. -/
def coalesce (a b c : JsField) : JsField :=
  match a with
  | .missing =>
    match b with
    | .missing =>
      match c with
      | .missing => .arr []
      | x => x
    | x => x
  | x => x

/-- `embed` from `ingest.ts`: non-success status throws; then
`if (!values || !Array.isArray(values)) throw new Error("Embedding vacío")`.
An array value — even the empty one coming from the `?? []` default — is
truthy in JavaScript and passes `Array.isArray`, so only non-array values
reach the throw. -/
def embed (r : EmbedResp) : Except String (List ℚ) :=
  if r.ok = false then
    .error ("Embeddings error " ++ toString r.status ++ ": " ++ r.bodyText)
  else
    match coalesce r.embeddingValues r.dataFirstValues r.embeddingField with
    | .arr vs => .ok vs
    | _ => .error "Embedding vacío"

/-- A persisted chunk row (`{document_id, content, embedding, metadata}`
restricted to the claim-relevant fields). -/
structure ChunkRow where
  content : List Char
  embedding : List ℚ
deriving DecidableEq

/-- The embed-and-persist loop of `main` in `ingest.ts`: each piece is
embedded in order and buffered for insertion; the first embedding error aborts
the whole ingestion. -/
def ingestRows (pieces : List (List Char))
    (embedOf : List Char → Except String (List ℚ)) :
    Except String (List ChunkRow) :=
  pieces.mapM fun c => (embedOf c).map fun e => ⟨c, e⟩

/-- C4 is a code bug: an HTTP-success response in which none of the probed
fields is present (e.g. body `{}`) coalesces to the empty array, which passes
the guard (`![]` is `false` and `Array.isArray([])` is `true`), so `embed`
returns `[]` instead of raising — despite the code's own error message
"Embedding vacío" — and the ingestion loop persists a chunk row with an empty
embedding vector. -/
theorem embed_empty_vector_bug :
    embed ⟨true, 200, "", .missing, .missing, .missing⟩ = .ok [] ∧
    ingestRows ["hola".data]
        (fun _ => embed ⟨true, 200, "", .missing, .missing, .missing⟩)
      = .ok [⟨"hola".data, []⟩] :=
  ⟨rfl, rfl⟩

end Ingest

namespace Ai

/-- The environment of one `askGemini` call (`frontend/lib/ai.ts`, the
local-embeddings variant): the optional `GEMINI_API_KEY`, whether `fetch`
resolves, the response success flag, status and error body, and the extracted
`data?.candidates?.[0]?.content?.parts?.[0]?.text` field. -/
structure GenEnv where
  apiKey : Option String
  fetchOk : Bool
  resOk : Bool
  resStatus : ℕ
  resErrText : String
  resText : Option String

/-- The offline fallback string built when `GEMINI_API_KEY` is absent:
a fixed prefix plus `context.slice(0, 500)` plus `"..."`. -/
def fallbackAnswer (context : String) : String :=
  "No tengo acceso a Gemini actualmente, pero puedo ayudarte con el contexto disponible:\n\n"
    ++ context.take 500 ++ "..."

/-- `askGemini` from `ai.ts`: missing key → offline fallback; a network
failure or non-success response → exception (`.error`); success → the
extracted text (defaulted to `""`), trimmed. -/
def askGemini (e : GenEnv) (question context : String) : Except String String :=
  match e.apiKey with
  | none => .ok (fallbackAnswer context)
  | some _ =>
    if e.fetchOk = false then .error "fetch failed"
    else if e.resOk = false then
      .error ("Gemini generate error " ++ toString e.resStatus ++ ": " ++ e.resErrText)
    else .ok (e.resText.getD "").trim

end Ai

namespace Route

/-- A row returned by the `match_chunks_v384` nearest-neighbor RPC. -/
structure MatchRow where
  document_id : String
  content : String
  similarity : ℚ
deriving DecidableEq

/-- A row of the `documents` table (`id, name, source_url`). -/
structure DocRow where
  id : String
  name : String
  source_url : Option String
deriving DecidableEq

/-- A value of the `docsById` map: `{ name, source_url }`. -/
structure DocInfo where
  name : String
  source_url : Option String
deriving DecidableEq

/-- A citation as assembled in step 7 of the handler. -/
structure Citation where
  docName : String
  sourceUrl : Option String
  snippet : String
  similarity : ℚ
deriving DecidableEq

/-- A row inserted into the `queries` table. -/
structure QueryRow where
  question : String
  answer : String
  confidence : ℚ
  citations : List Citation
deriving DecidableEq

/-- The observable side effects of one request, in program order. -/
inductive Effect where
  | callGemini (question context : String)
  | insertQuery (row : QueryRow)
  | insertTicket (queryId : String) (status : String)
deriving DecidableEq

/-- Result of the vector-search RPC: an error, or `data` (which the handler
checks for `null` with `!ms`). -/
inductive RpcResult where
  | err
  | ok (ms : Option (List MatchRow))

/-- The external world of one `POST /api/ask` request: the RPC result, the
`documents` lookup result (`none` models `docErr` or `null` data), the
generative backend (`none` models `askGemini` throwing), the id under which
the `queries` insert returns the saved row, and `CONFIDENCE_THRESHOLD`. -/
structure AskEnv where
  rpc : RpcResult
  docs : Option (List DocRow)
  gen : Option (String → String → String)
  savedId : Option String
  threshold : ℚ

/-- The JSON response of the handler. -/
inductive AskResponse where
  | ok (answer : String) (citations : List Citation) (confidence : ℚ)
  | err (msg : String) (status : ℕ)
deriving DecidableEq

/-- What one request produced: the response and the effect trace. -/
structure AskResult where
  response : AskResponse
  effects : List Effect

/-- The fixed no-information answer of the zero-match branch. -/
def noInfoMsg : String :=
  "No tengo información suficiente en la base de conocimiento para responder esa pregunta. " ++
  "Intenta con otra redacción o carga más documentos."

/-- The block separator of the context assembly. -/
def contextSep : String := "\n\n---\n\n"

/-- The fixed context character budget. -/
def budget : ℕ := 9000

/-- `docsById`, built from the `documents` lookup (empty on `docErr`/null). -/
def buildDocsById (docs : Option (List DocRow)) : List (String × DocInfo) :=
  match docs with
  | none => []
  | some ds => ds.map fun d => (d.id, ⟨d.name, d.source_url⟩)

/-- `docsById[id] || { name: "desconocido", source_url: null }` (JS object
assignment: the last write for a key wins). -/
def lookupDoc (m : List (String × DocInfo)) (id : String) : DocInfo :=
  (((m.filter fun p => p.1 = id).getLast?).map Prod.snd).getD ⟨"desconocido", none⟩

/-- One context block: `"# [<rank>] <docName>\n<content>"`. -/
def mkBlock (idx : ℕ) (docName content : String) : String :=
  "# [" ++ toString (idx + 1) ++ "] " ++ docName ++ "\n" ++ content

/-- Step 4 of the handler: one block per match, in ranked order. -/
def mkBlocks (ms : List MatchRow) (docsById : List (String × DocInfo)) :
    List String :=
  ms.enum.map fun p => mkBlock p.1 (lookupDoc docsById p.2.document_id).name p.2.content

/-- `context = context ? context + "\n\n---\n\n" + block : block`. -/
def appendBlock (acc b : String) : String :=
  if acc = "" then b else acc ++ contextSep ++ b

/-- The context-assembly loop: `break` at the first block whose addition
would exceed the budget (the test includes the separator even for the first
block, exactly as the code does). -/
def assembleGo : String → List String → String
  | acc, [] => acc
  | acc, b :: bs =>
    if budget < (acc ++ contextSep ++ b).length then acc
    else assembleGo (appendBlock acc b) bs

/-- The assembled context of a request. -/
def assembleContext (blocks : List String) : String := assembleGo "" blocks

/-- `Math.max(0, Math.min(1, topSim))`. -/
def clamp01 (x : ℚ) : ℚ := max 0 (min 1 x)

/-- `Number(x.toFixed(3))`: round to three decimal places. -/
def round3 (x : ℚ) : ℚ := (round (x * 1000) : ℚ) / 1000

/-- `m.content.slice(0, 240) + (m.content.length > 240 ? "..." : "")`. -/
def snippet (content : String) : String :=
  content.take 240 ++ (if 240 < content.length then "..." else "")

/-- Step 7 of the handler: the citations list. -/
def mkCitations (ms : List MatchRow) (docsById : List (String × DocInfo)) :
    List Citation :=
  ms.map fun m =>
    ⟨(lookupDoc docsById m.document_id).name, (lookupDoc docsById m.document_id).source_url,
      snippet m.content, round3 m.similarity⟩

/-- `(ms?.[0]?.similarity as number) ?? 0`. -/
def topSim (ms : List MatchRow) : ℚ :=
  match ms with
  | [] => 0
  | m :: _ => m.similarity

/-- The `POST` handler of `app/api/ask/route.ts` over an `AskEnv`: input
validation, vector search, the zero-match sentinel branch, document lookup,
context assembly, generation, confidence, citations, persistence and the
conditional ticket.  A `none` generative backend models `askGemini` throwing,
which the surrounding `try`/`catch` turns into a 500 response. -/
def POST (env : AskEnv) (question : String) : AskResult :=
  if question = "" then ⟨.err "Pregunta inválida" 400, []⟩
  else
    match env.rpc with
    | .err => ⟨.err "Falló la búsqueda vectorial" 500, []⟩
    | .ok mopt =>
      let ms := mopt.getD []
      if ms.isEmpty then
        ⟨.ok noInfoMsg [] 0, [.insertQuery ⟨question, noInfoMsg, 0, []⟩]⟩
      else
        let docsById := buildDocsById env.docs
        let context := assembleContext (mkBlocks ms docsById)
        match env.gen with
        | none => ⟨.err "Error en /api/ask" 500, [.callGemini question context]⟩
        | some g =>
          let answer := g question context
          let confidence := clamp01 (topSim ms)
          let citations := mkCitations ms docsById
          let ticketEffects : List Effect :=
            if confidence < env.threshold then
              match env.savedId with
              | some qid => [.insertTicket qid "open"]
              | none => []
            else []
          ⟨.ok answer citations confidence,
            [.callGemini question context,
             .insertQuery ⟨question, answer, confidence, citations⟩] ++ ticketEffects⟩

/-! ### The zero-match sentinel (claims C1 and C3) -/

/-- C1: when the nearest-neighbor search returns no matches (`null` data or
an empty list), the handler answers with confidence 0, an empty citations
list and the fixed insufficient-information message, and the generative
backend is never called on that request. -/
theorem POST_noMatch_sentinel (env : AskEnv) (q : String) (hq : q ≠ "")
    (hm : env.rpc = .ok none ∨ env.rpc = .ok (some [])) :
    (POST env q).response = .ok noInfoMsg [] 0 ∧
    (POST env q).effects = [.insertQuery ⟨q, noInfoMsg, 0, []⟩] ∧
    ∀ q' c, Effect.callGemini q' c ∉ (POST env q).effects := by
  rcases hm with hm | hm <;>
    refine ⟨?_, ?_, ?_⟩ <;>
      simp [POST, hq, hm]

/-- Witness for C1: a concrete request with an empty match list. -/
theorem POST_noMatch_sentinel_witness :
    (("hola" : String) ≠ "" ∧
      (AskEnv.mk (.ok (some [])) none none none 1).rpc = .ok (some [])) ∧
    ((POST (AskEnv.mk (.ok (some [])) none none none 1) "hola").response
        = .ok noInfoMsg [] 0 ∧
      (POST (AskEnv.mk (.ok (some [])) none none none 1) "hola").effects
        = [.insertQuery ⟨"hola", noInfoMsg, 0, []⟩] ∧
      ∀ q' c, Effect.callGemini q' c
        ∉ (POST (AskEnv.mk (.ok (some [])) none none none 1) "hola").effects) :=
  ⟨⟨by decide, rfl⟩,
    POST_noMatch_sentinel (AskEnv.mk (.ok (some [])) none none none 1) "hola"
      (by decide) (Or.inr rfl)⟩

/-- C3 (amended): a question with no matching chunks gets the response
`{citations: [], confidence: 0}`, and no Ticket is created for it — for any
threshold, positive or not: the zero-match branch returns before the
escalation step. -/
theorem POST_noMatch_no_ticket (env : AskEnv) (q : String) (hq : q ≠ "")
    (hm : env.rpc = .ok none ∨ env.rpc = .ok (some [])) :
    (POST env q).response = .ok noInfoMsg [] 0 ∧
    ∀ qid st, Effect.insertTicket qid st ∉ (POST env q).effects := by
  rcases hm with hm | hm <;>
    refine ⟨?_, ?_⟩ <;>
      simp [POST, hq, hm]

/-- Witness for C3 (amended) with a positive threshold. -/
theorem POST_noMatch_no_ticket_witness :
    (("hola" : String) ≠ "" ∧
      (AskEnv.mk (.ok (some [])) none none none ((7 : ℚ)/10)).rpc = .ok (some [])) ∧
    ((POST (AskEnv.mk (.ok (some [])) none none none ((7 : ℚ)/10)) "hola").response
        = .ok noInfoMsg [] 0 ∧
      ∀ qid st, Effect.insertTicket qid st
        ∉ (POST (AskEnv.mk (.ok (some [])) none none none ((7 : ℚ)/10)) "hola").effects) :=
  ⟨⟨by decide, rfl⟩,
    POST_noMatch_no_ticket (AskEnv.mk (.ok (some [])) none none none ((7 : ℚ)/10)) "hola"
      (by decide) (Or.inr rfl)⟩

/-- Counterexample to C3 as stated: with the positive threshold `7/10` and a
zero-match search, the handler still creates no Ticket — the effect trace is
exactly the one `queries` insert — contradicting "a Ticket with status `open`
IS created for that query when the threshold is greater than 0". -/
theorem POST_noMatch_ticket_cex :
    (0 : ℚ) < (7 : ℚ)/10 ∧
    (POST (AskEnv.mk (.ok (some [])) none none none ((7 : ℚ)/10)) "hola").response
      = .ok noInfoMsg [] 0 ∧
    (POST (AskEnv.mk (.ok (some [])) none none none ((7 : ℚ)/10)) "hola").effects
      = [.insertQuery ⟨"hola", noInfoMsg, 0, []⟩] := by
  refine ⟨by norm_num, rfl, rfl⟩

/-! ### The context budget (claim C2) -/

/-- Blocks joined in order with the `"\n\n---\n\n"` separator (the reference
shape for the assembled context). -/
def joinBlocks : List String → String
  | [] => ""
  | [b] => b
  | b :: b' :: bs => b ++ contextSep ++ joinBlocks (b' :: bs)

theorem assembleGo_cons (acc b : String) (bs : List String) :
    assembleGo acc (b :: bs) =
      if budget < (acc ++ contextSep ++ b).length then acc
      else assembleGo (appendBlock acc b) bs := rfl

theorem assembleGo_length :
    ∀ (bs : List String) (acc : String), acc.length ≤ budget →
      (assembleGo acc bs).length ≤ budget := by
  intro bs
  induction bs with
  | nil => intro acc h; exact h
  | cons b bs ih =>
    intro acc h
    rw [assembleGo_cons]
    by_cases ho : budget < (acc ++ contextSep ++ b).length
    · rw [if_pos ho]; exact h
    · rw [if_neg ho]
      refine ih (appendBlock acc b) ?_
      rw [appendBlock]
      by_cases ha : acc = ""
      · rw [if_pos ha]
        have hle := Nat.le_of_not_lt ho
        rw [String.length_append, String.length_append] at hle
        omega
      · rw [if_neg ha]
        exact Nat.le_of_not_lt ho

theorem assembleGo_spec :
    ∀ (bs : List String) (acc : String),
      ∃ k ≤ bs.length,
        assembleGo acc bs = List.foldl appendBlock acc (bs.take k) ∧
        (∀ j < k,
          (List.foldl appendBlock acc (bs.take j) ++ contextSep ++ bs.getD j "").length
            ≤ budget) ∧
        (k < bs.length →
          budget <
            (List.foldl appendBlock acc (bs.take k) ++ contextSep ++ bs.getD k "").length) := by
  intro bs
  induction bs with
  | nil =>
    intro acc
    exact ⟨0, Nat.le_refl 0, rfl, fun j hj => absurd hj (Nat.not_lt_zero j),
      fun h => absurd h (by simp)⟩
  | cons b bs ih =>
    intro acc
    by_cases ho : budget < (acc ++ contextSep ++ b).length
    · refine ⟨0, Nat.zero_le _, ?_, fun j hj => absurd hj (Nat.not_lt_zero j), ?_⟩
      · rw [assembleGo_cons, if_pos ho]; rfl
      · intro _
        simpa using ho
    · obtain ⟨k, hk, he, hfit, hstop⟩ := ih (appendBlock acc b)
      refine ⟨k + 1, Nat.succ_le_succ hk, ?_, ?_, ?_⟩
      · rw [assembleGo_cons, if_neg ho, List.take_succ_cons, List.foldl_cons]
        exact he
      · intro j hj
        cases j with
        | zero => simpa using Nat.le_of_not_lt ho
        | succ j' =>
          have hj' := hfit j' (by omega)
          rw [List.take_succ_cons, List.foldl_cons]
          simpa using hj'
      · intro hlt
        have hlt' := hstop (by simpa using Nat.lt_of_succ_lt_succ hlt)
        rw [List.take_succ_cons, List.foldl_cons]
        simpa using hlt'

theorem foldl_appendBlock_cons :
    ∀ (bs : List String) (acc : String), acc ≠ "" →
      List.foldl appendBlock acc bs = joinBlocks (acc :: bs) := by
  intro bs
  induction bs with
  | nil => intro acc _; rfl
  | cons b bs ih =>
    intro acc hacc
    have hne : acc ++ contextSep ++ b ≠ "" := by
      intro h
      have hlen := congrArg String.length h
      rw [String.length_append, String.length_append] at hlen
      have h7 : contextSep.length = 7 := rfl
      have h0 : ("" : String).length = 0 := rfl
      omega
    rw [List.foldl_cons, appendBlock, if_neg hacc, ih _ hne]
    cases bs with
    | nil => rfl
    | cons b' bs' =>
      show (acc ++ contextSep ++ b) ++ contextSep ++ joinBlocks (b' :: bs')
          = acc ++ contextSep ++ (b ++ contextSep ++ joinBlocks (b' :: bs'))
      simp [String.append_assoc]

theorem foldl_appendBlock_eq_joinBlocks (bs : List String)
    (hne : ∀ b ∈ bs, b ≠ "") :
    List.foldl appendBlock "" bs = joinBlocks bs := by
  cases bs with
  | nil => rfl
  | cons b bs' =>
    have hb : b ≠ "" := hne b (List.mem_cons_self b bs')
    rw [List.foldl_cons]
    have h0 : appendBlock "" b = b := by simp [appendBlock]
    rw [h0, foldl_appendBlock_cons bs' b hb]

theorem mkBlock_ne_empty (idx : ℕ) (docName content : String) :
    mkBlock idx docName content ≠ "" := by
  intro h
  simp only [mkBlock] at h
  have hlen := congrArg String.length h
  simp only [String.length_append] at hlen
  have h1 : ("# [" : String).length = 3 := rfl
  have h2 : ("] " : String).length = 2 := rfl
  have h3 : ("\n" : String).length = 1 := rfl
  have h0 : ("" : String).length = 0 := rfl
  omega

theorem mkBlocks_ne_empty (ms : List MatchRow) (docsById : List (String × DocInfo)) :
    ∀ b ∈ mkBlocks ms docsById, b ≠ "" := by
  intro b hb
  rw [mkBlocks, List.mem_map] at hb
  obtain ⟨p, _, hp⟩ := hb
  rw [← hp]
  exact mkBlock_ne_empty _ _ _

/-- C2: for a request with at least one match, the assembled context never
exceeds the 9000-character budget, and it is exactly the first `k` ranked
blocks joined whole with the `"\n\n---\n\n"` separator, where every included
block fits and — if any block is excluded — the first excluded block is
exactly the one whose addition would exceed the budget. -/
theorem POST_context_budget (ms : List MatchRow) (docs : Option (List DocRow))
    (hm : ms ≠ []) :
    (assembleContext (mkBlocks ms (buildDocsById docs))).length ≤ budget ∧
    ∃ k ≤ (mkBlocks ms (buildDocsById docs)).length,
      assembleContext (mkBlocks ms (buildDocsById docs))
        = joinBlocks ((mkBlocks ms (buildDocsById docs)).take k) ∧
      (∀ j < k,
        (joinBlocks ((mkBlocks ms (buildDocsById docs)).take j) ++ contextSep ++
          (mkBlocks ms (buildDocsById docs)).getD j "").length ≤ budget) ∧
      (k < (mkBlocks ms (buildDocsById docs)).length →
        budget <
          (joinBlocks ((mkBlocks ms (buildDocsById docs)).take k) ++ contextSep ++
            (mkBlocks ms (buildDocsById docs)).getD k "").length) := by
  have hne := mkBlocks_ne_empty ms (buildDocsById docs)
  have hfold : ∀ j, List.foldl appendBlock "" ((mkBlocks ms (buildDocsById docs)).take j)
      = joinBlocks ((mkBlocks ms (buildDocsById docs)).take j) := by
    intro j
    refine foldl_appendBlock_eq_joinBlocks _ ?_
    intro b hb
    exact hne b (List.mem_of_mem_take hb)
  constructor
  · exact assembleGo_length _ "" (by simp [budget])
  · obtain ⟨k, hk, he, hfit, hstop⟩ := assembleGo_spec (mkBlocks ms (buildDocsById docs)) ""
    refine ⟨k, hk, ?_, ?_, ?_⟩
    · rw [assembleContext, he, hfold]
    · intro j hj
      have := hfit j hj
      rwa [hfold] at this
    · intro hlt
      have := hstop hlt
      rwa [hfold] at this

/-- Witness for C2 at one concrete match and no document rows. -/
theorem POST_context_budget_witness :
    ((MatchRow.mk "d1" "contenido" (1/2) :: []) ≠ []) ∧
    ((assembleContext (mkBlocks [MatchRow.mk "d1" "contenido" (1/2)] (buildDocsById none))).length
        ≤ budget ∧
      ∃ k ≤ (mkBlocks [MatchRow.mk "d1" "contenido" (1/2)] (buildDocsById none)).length,
        assembleContext (mkBlocks [MatchRow.mk "d1" "contenido" (1/2)] (buildDocsById none))
          = joinBlocks ((mkBlocks [MatchRow.mk "d1" "contenido" (1/2)] (buildDocsById none)).take k) ∧
        (∀ j < k,
          (joinBlocks ((mkBlocks [MatchRow.mk "d1" "contenido" (1/2)] (buildDocsById none)).take j)
            ++ contextSep ++
            (mkBlocks [MatchRow.mk "d1" "contenido" (1/2)] (buildDocsById none)).getD j "").length
              ≤ budget) ∧
        (k < (mkBlocks [MatchRow.mk "d1" "contenido" (1/2)] (buildDocsById none)).length →
          budget <
            (joinBlocks ((mkBlocks [MatchRow.mk "d1" "contenido" (1/2)] (buildDocsById none)).take k)
              ++ contextSep ++
              (mkBlocks [MatchRow.mk "d1" "contenido" (1/2)] (buildDocsById none)).getD k "").length)) :=
  ⟨by decide, POST_context_budget [MatchRow.mk "d1" "contenido" (1/2)] none (by decide)⟩

/-! ### The escalation policy (claim C6) -/

/-- C6: on the answered path (matches found, generation succeeded, the Query
row saved under `qid`), a Ticket `(qid, "open")` is created iff
`confidence < threshold` — in particular not at the boundary
`confidence = threshold` — and the effect trace places the Ticket insert
strictly after the Query insert. -/
theorem POST_escalation (env : AskEnv) (q : String) (ms : List MatchRow)
    (g : String → String → String) (qid : String)
    (hq : q ≠ "") (hrpc : env.rpc = .ok (some ms)) (hm : ms ≠ [])
    (hg : env.gen = some g) (hs : env.savedId = some qid) :
    (clamp01 (topSim ms) < env.threshold →
      (POST env q).effects =
        [.callGemini q (assembleContext (mkBlocks ms (buildDocsById env.docs))),
         .insertQuery ⟨q, g q (assembleContext (mkBlocks ms (buildDocsById env.docs))),
            clamp01 (topSim ms), mkCitations ms (buildDocsById env.docs)⟩,
         .insertTicket qid "open"]) ∧
    (¬ clamp01 (topSim ms) < env.threshold →
      (POST env q).effects =
        [.callGemini q (assembleContext (mkBlocks ms (buildDocsById env.docs))),
         .insertQuery ⟨q, g q (assembleContext (mkBlocks ms (buildDocsById env.docs))),
            clamp01 (topSim ms), mkCitations ms (buildDocsById env.docs)⟩]) ∧
    ((Effect.insertTicket qid "open" ∈ (POST env q).effects) ↔
      clamp01 (topSim ms) < env.threshold) ∧
    (clamp01 (topSim ms) = env.threshold →
      Effect.insertTicket qid "open" ∉ (POST env q).effects) ∧
    (∀ i : ℕ, (POST env q).effects[i]? = some (Effect.insertTicket qid "open") →
      ∃ j : ℕ, j < i ∧ (POST env q).effects[j]? =
        some (Effect.insertQuery ⟨q, g q (assembleContext (mkBlocks ms (buildDocsById env.docs))),
          clamp01 (topSim ms), mkCitations ms (buildDocsById env.docs)⟩)) := by
  have hie : ms.isEmpty = false := by
    cases ms with
    | nil => exact absurd rfl hm
    | cons a l => rfl
  by_cases hc : clamp01 (topSim ms) < env.threshold
  · have heff : (POST env q).effects =
        [.callGemini q (assembleContext (mkBlocks ms (buildDocsById env.docs))),
         .insertQuery ⟨q, g q (assembleContext (mkBlocks ms (buildDocsById env.docs))),
            clamp01 (topSim ms), mkCitations ms (buildDocsById env.docs)⟩,
         .insertTicket qid "open"] := by
      simp [POST, hq, hrpc, hie, hg, hs, hc]
    refine ⟨fun _ => heff, fun h => absurd hc h, ?_, ?_, ?_⟩
    · rw [heff]
      simp [hc]
    · intro he
      rw [he] at hc
      exact absurd hc (lt_irrefl _)
    · intro i hi
      rw [heff] at hi
      cases i with
      | zero => simp at hi
      | succ i1 =>
        cases i1 with
        | zero => simp at hi
        | succ i2 =>
          cases i2 with
          | zero =>
            refine ⟨1, by omega, ?_⟩
            rw [heff]
            rfl
          | succ n => simp at hi
  · have heff : (POST env q).effects =
        [.callGemini q (assembleContext (mkBlocks ms (buildDocsById env.docs))),
         .insertQuery ⟨q, g q (assembleContext (mkBlocks ms (buildDocsById env.docs))),
            clamp01 (topSim ms), mkCitations ms (buildDocsById env.docs)⟩] := by
      simp [POST, hq, hrpc, hie, hg, hs, hc]
    refine ⟨fun h => absurd h hc, fun _ => heff, ?_, ?_, ?_⟩
    · rw [heff]
      simp [hc]
    · intro _
      rw [heff]
      simp
    · intro i hi
      rw [heff] at hi
      cases i with
      | zero => simp at hi
      | succ i1 =>
        cases i1 with
        | zero => simp at hi
        | succ i2 => simp at hi

/-- The match row, generator and environment of the C6 witness. -/
def msC6 : List MatchRow := [⟨"d1", "contenido", (1 : ℚ)/2⟩]

def gC6 : String → String → String := fun _ _ => "respuesta"

def envC6 : AskEnv := ⟨.ok (some msC6), none, some gC6, some "q1", (7 : ℚ)/10⟩

/-- Witness for C6 at a concrete low-confidence request. -/
theorem POST_escalation_witness :
    (("q" : String) ≠ "" ∧ envC6.rpc = .ok (some msC6) ∧ msC6 ≠ [] ∧
      envC6.gen = some gC6 ∧ envC6.savedId = some "q1") ∧
    ((clamp01 (topSim msC6) < envC6.threshold →
      (POST envC6 "q").effects =
        [.callGemini "q" (assembleContext (mkBlocks msC6 (buildDocsById envC6.docs))),
         .insertQuery ⟨"q", gC6 "q" (assembleContext (mkBlocks msC6 (buildDocsById envC6.docs))),
            clamp01 (topSim msC6), mkCitations msC6 (buildDocsById envC6.docs)⟩,
         .insertTicket "q1" "open"]) ∧
    (¬ clamp01 (topSim msC6) < envC6.threshold →
      (POST envC6 "q").effects =
        [.callGemini "q" (assembleContext (mkBlocks msC6 (buildDocsById envC6.docs))),
         .insertQuery ⟨"q", gC6 "q" (assembleContext (mkBlocks msC6 (buildDocsById envC6.docs))),
            clamp01 (topSim msC6), mkCitations msC6 (buildDocsById envC6.docs)⟩]) ∧
    ((Effect.insertTicket "q1" "open" ∈ (POST envC6 "q").effects) ↔
      clamp01 (topSim msC6) < envC6.threshold) ∧
    (clamp01 (topSim msC6) = envC6.threshold →
      Effect.insertTicket "q1" "open" ∉ (POST envC6 "q").effects) ∧
    (∀ i : ℕ, (POST envC6 "q").effects[i]? = some (Effect.insertTicket "q1" "open") →
      ∃ j : ℕ, j < i ∧ (POST envC6 "q").effects[j]? =
        some (Effect.insertQuery ⟨"q", gC6 "q" (assembleContext (mkBlocks msC6 (buildDocsById envC6.docs))),
          clamp01 (topSim msC6), mkCitations msC6 (buildDocsById envC6.docs)⟩))) :=
  ⟨⟨by decide, rfl, by decide, rfl, rfl⟩,
    POST_escalation envC6 "q" msC6 gC6 "q1" (by decide) rfl (by decide) rfl rfl⟩

/-! ### Resilience of the document lookup (claim C10) -/

/-- C10: when the batched `documents` lookup fails (or returns null), the
request still succeeds: the answer is computed from the assembled context,
confidence is computed, and every context-block header and citation falls
back to the placeholder name `"desconocido"` with a null source URL; a match
whose `document_id` is missing from a successful lookup falls back the same
way. -/
theorem POST_doc_lookup_fallback (env : AskEnv) (q : String) (ms : List MatchRow)
    (g : String → String → String)
    (hq : q ≠ "") (hrpc : env.rpc = .ok (some ms)) (hm : ms ≠ [])
    (hdocs : env.docs = none) (hg : env.gen = some g) :
    (POST env q).response =
      .ok (g q (assembleContext (mkBlocks ms []))) (mkCitations ms [])
        (clamp01 (topSim ms)) ∧
    (∀ c ∈ mkCitations ms [], c.docName = "desconocido" ∧ c.sourceUrl = none) ∧
    (mkBlocks ms [] = ms.enum.map fun p => mkBlock p.1 "desconocido" p.2.content) ∧
    (∀ (rows : List DocRow) (id : String), (∀ d ∈ rows, d.id ≠ id) →
      lookupDoc (buildDocsById (some rows)) id = ⟨"desconocido", none⟩) := by
  have hie : ms.isEmpty = false := by
    cases ms with
    | nil => exact absurd rfl hm
    | cons a l => rfl
  refine ⟨?_, ?_, ?_, ?_⟩
  · simp [POST, hq, hrpc, hie, hdocs, hg, buildDocsById]
  · intro c hc
    rw [mkCitations, List.mem_map] at hc
    obtain ⟨m, _, hmc⟩ := hc
    rw [← hmc]
    exact ⟨rfl, rfl⟩
  · rfl
  · intro rows id hne
    rw [lookupDoc, buildDocsById]
    have hfil : ((rows.map fun d => (d.id, (⟨d.name, d.source_url⟩ : DocInfo))).filter
        fun p => p.1 = id) = [] := by
      rw [List.filter_eq_nil_iff]
      intro a ha
      rw [List.mem_map] at ha
      obtain ⟨d, hd, hda⟩ := ha
      rw [← hda]
      simpa using hne d hd
    rw [hfil]
    rfl

/-- The match rows of the C10 witness. -/
def msC10 : List MatchRow := [⟨"d9", "texto", (3 : ℚ)/4⟩]

/-- Witness for C10 at a concrete request with a failed lookup. -/
theorem POST_doc_lookup_fallback_witness :
    (("q" : String) ≠ "" ∧
      (AskEnv.mk (.ok (some msC10)) none (some gC6) none 1).rpc = .ok (some msC10) ∧
      msC10 ≠ [] ∧ (AskEnv.mk (.ok (some msC10)) none (some gC6) none 1).docs = none ∧
      (AskEnv.mk (.ok (some msC10)) none (some gC6) none 1).gen = some gC6) ∧
    ((POST (AskEnv.mk (.ok (some msC10)) none (some gC6) none 1) "q").response =
      .ok (gC6 "q" (assembleContext (mkBlocks msC10 []))) (mkCitations msC10 [])
        (clamp01 (topSim msC10)) ∧
    (∀ c ∈ mkCitations msC10 [], c.docName = "desconocido" ∧ c.sourceUrl = none) ∧
    (mkBlocks msC10 [] = msC10.enum.map fun p => mkBlock p.1 "desconocido" p.2.content) ∧
    (∀ (rows : List DocRow) (id : String), (∀ d ∈ rows, d.id ≠ id) →
      lookupDoc (buildDocsById (some rows)) id = ⟨"desconocido", none⟩)) :=
  ⟨⟨by decide, rfl, by decide, rfl, rfl⟩,
    POST_doc_lookup_fallback (AskEnv.mk (.ok (some msC10)) none (some gC6) none 1) "q"
      msC10 gC6 (by decide) rfl (by decide) rfl rfl⟩

/-! ### The Answer Composer fallback (claim C5) -/

/-- Counterexample to C5 as stated: with the API key present and a
non-success response, `askGemini` raises (`Gemini generate error …`) instead
of taking the fallback path, and at the handler level a raising generative
call surfaces to the user as the 500 response `"Error en /api/ask"`. -/
theorem askGemini_error_surfaces_cex :
    Ai.askGemini ⟨some "k", true, false, 500, "err", none⟩ "q" "ctx"
      = .error "Gemini generate error 500: err" ∧
    (POST (AskEnv.mk (.ok (some msC10)) none none none ((7 : ℚ)/10)) "q").response
      = .err "Error en /api/ask" 500 :=
  ⟨rfl, rfl⟩

/-- C5 (amended): only a missing `GEMINI_API_KEY` takes the deterministic
fallback path; that fallback never raises (`askGemini` returns `.ok`) and is
a non-empty string for every context.  (A non-success response or network
failure raises instead — see the counterexample.) -/
theorem askGemini_missing_key_fallback (e : Ai.GenEnv) (q c : String)
    (hk : e.apiKey = none) :
    Ai.askGemini e q c = .ok (Ai.fallbackAnswer c) ∧ Ai.fallbackAnswer c ≠ "" := by
  constructor
  · rw [Ai.askGemini, hk]
  · intro h
    simp only [Ai.fallbackAnswer] at h
    have hlen := congrArg String.length h
    simp only [String.length_append] at hlen
    have h1 : 0 <
        ("No tengo acceso a Gemini actualmente, pero puedo ayudarte con el contexto disponible:\n\n" :
          String).length := by decide
    have h0 : ("" : String).length = 0 := rfl
    omega

/-- Witness for C5 (amended) at a concrete missing-key environment. -/
theorem askGemini_missing_key_fallback_witness :
    ((Ai.GenEnv.mk none true true 200 "" none).apiKey = none) ∧
    (Ai.askGemini (Ai.GenEnv.mk none true true 200 "" none) "q" "ctx"
        = .ok (Ai.fallbackAnswer "ctx") ∧ Ai.fallbackAnswer "ctx" ≠ "") :=
  ⟨rfl, askGemini_missing_key_fallback (Ai.GenEnv.mk none true true 200 "" none) "q" "ctx" rfl⟩

end Route

end Unibot
